import Mathlib

/-!
Verification development for `pyhacrf.py`, a Hidden Alignment Conditional
Random Field trainer.  The Python source is shallowly embedded below:

* numpy feature tensors and parameter matrices become structures carrying
  their shape and an entry function over the rationals; an out-of-bounds
  numpy access (an `IndexError`) is modelled by `Option.none`;
* `np.exp` is kept abstract: every function that uses it takes an explicit
  argument `expf : Q → Q` standing for the real exponential (the only facts
  about `np.exp` any theorem below relies on, such as `exp 0 = 1`, are
  stated as hypotheses that the real exponential satisfies exactly);
* the breadth-first worklist of `_Model._build_lattice` is embedded with an
  explicit fuel argument, `none` meaning the loop has not finished within
  the given fuel; termination is then a theorem, not an assumption;
* Python attributes that `_Model.__init__` never sets (`ll`,
  `add_derivative`, both of which `Hacrf.fit._objective` uses) are modelled
  as `Option`-valued fields initialised to `none`; reading such an
  attribute while it is `none` is Python's `AttributeError`.

Transition deltas are modelled as natural-number pairs (fixed, or computed
by a callable from the position and the tensor, exactly as the source
dispatches on `callable(delta)`); every claim under study concerns
non-negative deltas.
-/

namespace Pyhacrf

/-- Feature tensor of shape `(I, J, F)`: entry `i j f` is `x[i, j, f]`. -/
structure Tensor where
  I : Nat
  J : Nat
  F : Nat
  entry : Nat → Nat → Nat → ℚ

/-- numpy row slice `x[i, j, :]`; `none` is the `IndexError` raised when
`(i, j)` is out of bounds. -/
def Tensor.slice (x : Tensor) (i j : Nat) : Option (List ℚ) :=
  if i < x.I ∧ j < x.J then some ((List.range x.F).map fun f => x.entry i j f)
  else none

/-- Dense numpy matrix (the parameter matrix and the derivative matrix). -/
structure Mat where
  rows : Nat
  cols : Nat
  entry : Nat → Nat → ℚ

/-- numpy column slice `parameters[:, c]`; `none` is the `IndexError`
raised when column `c` does not exist. -/
def Mat.col (p : Mat) (c : Nat) : Option (List ℚ) :=
  if c < p.cols then some ((List.range p.rows).map fun r => p.entry r c)
  else none

/-- `np.dot` of two feature vectors of equal length. -/
def dot (a b : List ℚ) : ℚ :=
  ((a.zip b).map fun q => q.1 * q.2).sum

/-- Transition delta: either a fixed pair `(di, dj)` or a callable evaluated
at the current position and tensor (`callable(delta)` in the source). -/
inductive Delta where
  | fixed : Nat → Nat → Delta
  | fn : (Nat → Nat → Tensor → Nat × Nat) → Delta

/-- Dispatch of `_build_lattice` on the shape of a delta. -/
def evalDelta (d : Delta) (i j : Nat) (x : Tensor) : Nat × Nat :=
  match d with
  | .fixed di dj => (di, dj)
  | .fn f => f i j x

/-- Boolean test that a delta is the fixed pair `(a, b)`. -/
def Delta.isFixed (d : Delta) (a b : Nat) : Bool :=
  match d with
  | .fixed a0 b0 => a = a0 ∧ b = b0
  | .fn _ => false

/-- State machine `(list_of_states, list_of_transitions)`.  The source
asserts that the first element of the state list is a tuple (holding all
start states); the remaining elements are single states.  A transition is
`(source_state, dest_state, delta)`. -/
structure StateMachine where
  startStates : List Nat
  otherStates : List Nat
  transitions : List (Nat × Nat × Delta)

/-- Lattice entry: the source stores 3-tuples (nodes) and 7-tuples (edges)
in one Python list. -/
inductive Entry where
  | node : Nat → Nat → Nat → Entry
  | edge : Nat → Nat → Nat → Nat → Nat → Nat → Nat → Entry
deriving DecidableEq, Repr

/-- Tuple representation of an entry, for Python's lexicographic tuple
comparison. -/
def Entry.key : Entry → List Nat
  | .node i j s => [i, j, s]
  | .edge i0 j0 i1 j1 s0 s1 t => [i0, j0, i1, j1, s0, s1, t]

/-- Python 2 tuple comparison on integer tuples: lexicographic, a strict
prefix ordering below any extension. -/
def keyLe : List Nat → List Nat → Bool
  | [], _ => true
  | _ :: _, [] => false
  | a :: as, b :: bs => if a < b then true else if b < a then false else keyLe as bs

/-- Order in which `sorted` arranges the mixed node/edge list. -/
def entryLe (a b : Entry) : Bool := keyLe a.key b.key

/-- Order in which `sorted` arranges the mixed node/edge list, as a
relation. -/
def entryRel (a b : Entry) : Prop := entryLe a b = true

instance : DecidableRel entryRel := fun a b => by
  unfold entryRel; infer_instance

/-- `sorted(lattice)` of the source.  Python sorts by the tuple order;
since two entries that compare equal under that order are the same tuple,
every correct sorting algorithm returns the same list, and the embedding
uses insertion sort. -/
def sortEntries (l : List Entry) : List Entry := l.insertionSort entryRel

/-- Inner loop of `_build_lattice` over the transition list (with its
enumeration index): for each transition leaving the popped node `(i, j, s)`
whose destination stays strictly inside the tensor bounds, emit the edge
and enqueue the destination node.  Returns (emitted edges, enqueued
nodes). -/
def stepTrans (x : Tensor) (nS : Nat) (i j s : Nat) :
    Nat → List (Nat × Nat × Delta) → List Entry × List (Nat × Nat × Nat)
  | _, [] => ([], [])
  | tIdx, (s0, s1, d) :: rest =>
    let tail := stepTrans x nS i j s (tIdx + 1) rest
    if s = s0 then
      let di := (evalDelta d i j x).1
      let dj := (evalDelta d i j x).2
      if i + di < x.I ∧ j + dj < x.J then
        (Entry.edge i j (i + di) (j + dj) s0 s1 (tIdx + nS) :: tail.1,
         (i + di, j + dj, s1) :: tail.2)
      else tail
    else tail

/-- Worklist loop of `_build_lattice`, with fuel; `none` means the loop has
not finished within `fuel` pops. -/
def buildLoop (x : Tensor) (sm : StateMachine) (nS : Nat) :
    Nat → List (Nat × Nat × Nat) → List Entry → Option (List Entry)
  | _, [], lat => some lat
  | 0, _ :: _, _ => none
  | fuel + 1, (i, j, s) :: rest, lat =>
    let step := stepTrans x nS i j s 0 sm.transitions
    buildLoop x sm nS fuel (rest ++ step.2) (lat ++ Entry.node i j s :: step.1)

/-- `n_states = len(states) - 1 + len(states[0])` of `_build_lattice`. -/
def nStatesLattice (sm : StateMachine) : Nat :=
  sm.otherStates.length + sm.startStates.length

/-- `_Model._build_lattice`: breadth-first expansion from the start nodes
`(0, 0, s)`, then `sorted(lattice)`. -/
def buildLattice (x : Tensor) (sm : StateMachine) (fuel : Nat) :
    Option (List Entry) :=
  (buildLoop x sm (nStatesLattice sm) fuel
      (sm.startStates.map fun s => (0, 0, s)) []).map sortEntries

/-- `Hacrf._default_state_machine`: one start state per class, and for each
class the match `(1,1)`, insertion `(0,1)` and deletion `(1,0)`
self-transitions; paired with `dict(enumerate(classes))`. -/
def defaultStateMachine (classes : List α) : StateMachine × List (Nat × α) :=
  let n := classes.length
  (⟨List.range n, [],
    ((List.range n).map fun i => (i, i, Delta.fixed 1 1)) ++
    ((List.range n).map fun i => (i, i, Delta.fixed 0 1)) ++
    ((List.range n).map fun i => (i, i, Delta.fixed 1 0))⟩,
   classes.enum)

/-- `Hacrf._initialize_parameters`: `np.zeros((n_features, n_states +
n_transitions))` where `n_states = len(state_machine[0])`, the length of
the state list (whose first element is the tuple of start states). -/
def initializeParameters (sm : StateMachine) (n_features : Nat) : Mat :=
  let n_states := 1 + sm.otherStates.length
  let n_transitions := sm.transitions.length
  ⟨n_features, n_states + n_transitions, fun _ _ => 0⟩

/-- Alpha table: `defaultdict(float)` keyed by node/edge tuples. -/
def AlphaTbl : Type := Entry → ℚ

/-- Pointwise dictionary update. -/
def upd (a : AlphaTbl) (k : Entry) (v : ℚ) : AlphaTbl :=
  fun e => if e = k then v else a e

/-- Body of the loop of `_Model.forward_backward` for one lattice entry.
The source dispatches on `if len(node) < 3:`.  A node is a 3-tuple and an
edge a 7-tuple, so the test is false for every lattice entry and control
always reaches the `else` branch, whose seven-name unpacking
`i0, j0, i1, j1, s0, s1, edge_parameter_index = node` succeeds for an edge
and raises `ValueError` for a 3-tuple node: the node-potential branch
(`i, j, s = node; alpha[node] += np.exp(np.dot(x[i, j, :], parameters[:, s]))`)
is dead code, kept here under the same never-true test.  For an edge the
source executes
`edge_potential = np.exp(np.dot(x[i1, j1, :], parameters[:, idx]) * alpha[(i0, j0, s0)])`
(the multiplication by `alpha[(i0, j0, s0)]` sits inside the argument of
`np.exp`), then `alpha[edge] = edge_potential` and
`alpha[(i1, j1, s1)] += edge_potential`. -/
def fbStep (expf : ℚ → ℚ) (x : Tensor) (p : Mat) (a : AlphaTbl) (e : Entry) :
    Option AlphaTbl :=
  if e.key.length < 3 then
    match e with
    | .node i j s => do
      let xs ← x.slice i j
      let ps ← p.col s
      some (upd a (.node i j s) (a (.node i j s) + expf (dot xs ps)))
    | .edge _ _ _ _ _ _ _ => none
  else
    match e with
    | .node _ _ _ => none
    | .edge i0 j0 i1 j1 s0 s1 idx => do
      let xs ← x.slice i1 j1
      let ps ← p.col idx
      let ep := expf (dot xs ps * a (.node i0 j0 s0))
      let a1 := upd a (.edge i0 j0 i1 j1 s0 s1 idx) ep
      some (upd a1 (.node i1 j1 s1) (a1 (.node i1 j1 s1) + ep))

/-- Loop of `_Model.forward_backward`: fold `fbStep` over the sorted
lattice, starting from the empty `defaultdict(float)`. -/
def fbAlpha (expf : ℚ → ℚ) (x : Tensor) (p : Mat) (lattice : List Entry) :
    Option AlphaTbl :=
  lattice.foldlM (fbStep expf x p) (fun _ => 0)

/-- `_Model` instance: exactly the attributes `__init__` sets, plus the
attributes `ll` and `add_derivative` that `Hacrf.fit._objective` expects;
`__init__` never sets those, and nothing else does, so they are `none`
(reading them raises `AttributeError`). -/
structure Model where
  state_machine : StateMachine
  classes : List Nat
  x : Tensor
  y : Nat
  lattice : List Entry
  ll : Option ℚ
  add_derivative : Option (Mat → Mat)

/-- `_Model.__init__`: store the arguments and build the lattice. -/
def mkModel (sm : StateMachine) (classes : List Nat) (x : Tensor) (y : Nat)
    (fuel : Nat) : Option Model :=
  (buildLattice x sm fuel).map fun lat =>
    { state_machine := sm, classes := classes, x := x, y := y,
      lattice := lat, ll := none, add_derivative := none }

/-- `_Model.forward_backward`: fold the loop body over the stored lattice,
discard the alpha table, write no attribute of `self`, and return `None`
(modelled as `Unit`).  `none` is an uncaught exception from inside the
loop: the `ValueError` of unpacking a 3-tuple node into seven names, or an
`IndexError` from a tensor or parameter access. -/
def forwardBackward (expf : ℚ → ℚ) (m : Model) (p : Mat) :
    Option (Model × Unit) :=
  (fbAlpha expf m.x p m.lattice).map fun _ => (m, ())

/-- Negation of a derivative matrix, `-derivative` of the source. -/
def negMat (d : Mat) : Mat :=
  ⟨d.rows, d.cols, fun r c => -(d.entry r c)⟩

/-- Loop body of `Hacrf.fit._objective` over the per-example models:
`model.forward_backward(parameters)` (whose exceptions propagate out of
the objective), then `model.add_derivative(derivative)`, then
`ll += model.ll`.  The second and third steps read attributes `_Model`
never defines, so they raise `AttributeError` whenever reached. -/
def objectiveLoop (expf : ℚ → ℚ) (p : Mat) :
    List Model → ℚ → Mat → Except String (ℚ × Mat)
  | [], ll, deriv => .ok (-ll, negMat deriv)
  | m :: rest, ll, deriv =>
    match forwardBackward expf m p with
    | none => .error "exception raised in forward_backward"
    | some r =>
      match r.1.add_derivative with
      | none => .error "AttributeError: add_derivative"
      | some f =>
        match r.1.ll with
        | none => .error "AttributeError: ll"
        | some mll => objectiveLoop expf p rest (ll + mll) (f deriv)

/-- `Hacrf.fit._objective`: zero the derivative accumulator (shaped like the
parameter matrix), run every model, and return `(-ll, -derivative)`. -/
def objective (expf : ℚ → ℚ) (models : List Model) (p : Mat) (shape : Mat) :
    Except String (ℚ × Mat) :=
  objectiveLoop expf p models 0 ⟨shape.rows, shape.cols, fun _ _ => 0⟩

/-- `Hacrf.fit` up to the construction of the per-example models: compute
the class set, fail fast when the number of training tensors differs from
the number of labels, then build the default state machine, the initial
parameter matrix (reading `X[0]`), and one `_Model` per example.  `none`
from a model build (fuel exhaustion) is reported as an error string so the
result stays a plain `Except`. -/
def fit (X : List Tensor) (y : List Nat) (fuel : Nat) :
    Except String (Mat × List Model) :=
  let classes := y.dedup
  if X.length ≠ y.length then
    .error "Number of training points should be the same as training labels."
  else
    match X with
    | [] => .error "IndexError: list index out of range"
    | x0 :: _ =>
      let sm := (defaultStateMachine classes).1
      let parameters := initializeParameters sm x0.F
      match (X.zip y).mapM (fun xy => mkModel sm classes xy.1 xy.2 fuel) with
      | none => .error "lattice construction did not finish"
      | some models => .ok (parameters, models)

/-- One objective evaluation as the optimizer drives it: build the models
with `fit`, then evaluate `_objective` at the current parameter matrix
`p` (the derivative accumulator is shaped like the initial parameters). -/
def fitThenObjective (X : List Tensor) (y : List Nat) (fuel : Nat)
    (expf : ℚ → ℚ) (p : Mat) : Except String (ℚ × Mat) :=
  match fit X y fuel with
  | .error e => .error e
  | .ok r => objective expf r.2 p r.1

/-- Modelled from the spec claim C1 wording (spec section 4.3), for
comparison with `fbStep`: a start node's alpha is initialised to its local
node potential `exp(dot(x[i, j, :], parameters[:, s]))`; every other
node's alpha is the sum over its incoming edges of
`edge_potential * alpha[source_node]`, with
`edge_potential = exp(dot(x[i1, j1, :], parameters[:, idx]))` taken at the
edge's destination position. -/
def claimFbStep (expf : ℚ → ℚ) (x : Tensor) (p : Mat) (starts : List Nat)
    (a : AlphaTbl) : Entry → Option AlphaTbl
  | .node i j s =>
    if i = 0 ∧ j = 0 ∧ s ∈ starts then do
      let xs ← x.slice i j
      let ps ← p.col s
      some (upd a (.node i j s) (expf (dot xs ps)))
    else some a
  | .edge i0 j0 i1 j1 s0 s1 idx => do
    let xs ← x.slice i1 j1
    let ps ← p.col idx
    let ep := expf (dot xs ps)
    some (upd a (.node i1 j1 s1)
      (a (.node i1 j1 s1) + ep * a (.node i0 j0 s0)))

/-- Forward recurrence exactly as claim C1 states it, accumulated over the
sorted lattice (sources resolve before the edges that leave them). -/
def claimAlpha (expf : ℚ → ℚ) (x : Tensor) (p : Mat) (starts : List Nat)
    (lattice : List Entry) : Option AlphaTbl :=
  lattice.foldlM (claimFbStep expf x p starts) (fun _ => 0)

/-- Success test for an objective evaluation (`True` iff no exception). -/
def exceptIsOk (e : Except String α) : Bool :=
  match e with
  | .ok _ => true
  | .error _ => false

/-- All transition deltas are fixed non-negative pairs moving at least one
position forward. -/
def goodDeltas (ts : List (Nat × Nat × Delta)) : Prop :=
  ∀ t ∈ ts, ∃ di dj, t.2.2 = Delta.fixed di dj ∧ 1 ≤ di + dj

/-! ### Concrete inputs used by the concrete theorems below -/

/-- All-zero feature tensor of shape `(i, j, 1)`. -/
def tens (i j : Nat) : Tensor := ⟨i, j, 1, fun _ _ _ => 0⟩

/-- Default state machine for a single class. -/
def smOne : StateMachine := (defaultStateMachine [0]).1

/-- Default state machine for two classes. -/
def smTwo : StateMachine := (defaultStateMachine [0, 1]).1

/-- One-node `_Model` over a 1×1×1 tensor with the single-class machine. -/
def model11 : Model :=
  { state_machine := smOne, classes := [0], x := tens 1 1, y := 0,
    lattice := (buildLattice (tens 1 1) smOne 1).getD [],
    ll := none, add_derivative := none }

/-- `_Model` over an empty class list: `_default_state_machine([])` has no
start states, so the built lattice is empty. -/
def modelEmpty : Model :=
  { state_machine := (defaultStateMachine ([] : List Nat)).1, classes := [],
    x := tens 1 1, y := 0,
    lattice := (buildLattice (tens 1 1) (defaultStateMachine ([] : List Nat)).1 0).getD [],
    ll := none, add_derivative := none }

/-! ### Helper lemmas -/

theorem forwardBackward_model_eq (expf : ℚ → ℚ) (m : Model) (p : Mat)
    (r : Model × Unit) (h : forwardBackward expf m p = some r) : r.1 = m := by
  unfold forwardBackward at h
  rcases Option.map_eq_some'.1 h with ⟨a, -, rfl⟩
  rfl

theorem fbStep_node_raises (expf : ℚ → ℚ) (x : Tensor) (p : Mat)
    (a : AlphaTbl) (i j s : Nat) :
    fbStep expf x p a (Entry.node i j s) = none := rfl

theorem foldlM_fbStep_none_of_node (expf : ℚ → ℚ) (x : Tensor) (p : Mat) :
    ∀ (l : List Entry) (a : AlphaTbl) (i j s : Nat), Entry.node i j s ∈ l →
      l.foldlM (fbStep expf x p) a = none := by
  intro l
  induction l with
  | nil => intro a i j s hmem; simp at hmem
  | cons hd tl ih =>
    intro a i j s hmem
    rw [List.foldlM_cons]
    rcases List.mem_cons.1 hmem with rfl | hmem'
    · rw [fbStep_node_raises]
      rfl
    · cases hstep : fbStep expf x p a hd with
      | none => rfl
      | some a2 => simpa using ih a2 i j s hmem'

theorem fbAlpha_none_of_node_mem (expf : ℚ → ℚ) (x : Tensor) (p : Mat)
    (l : List Entry) (i j s : Nat) (hmem : Entry.node i j s ∈ l) :
    fbAlpha expf x p l = none :=
  foldlM_fbStep_none_of_node expf x p l _ i j s hmem

theorem keyLe_total : ∀ a b : List Nat, (keyLe a b || keyLe b a) = true
  | [], _ => by simp [keyLe]
  | _ :: _, [] => by simp [keyLe]
  | a :: as, b :: bs => by
    by_cases hab : a < b
    · simp [keyLe, hab]
    · by_cases hba : b < a
      · simp [keyLe, hab, hba]
      · simpa [keyLe, hab, hba] using keyLe_total as bs

theorem keyLe_trans :
    ∀ a b c : List Nat, keyLe a b = true → keyLe b c = true → keyLe a c = true
  | [], _, _, _, _ => rfl
  | _ :: _, [], _, h, _ => by simp [keyLe] at h
  | _ :: _, _ :: _, [], _, h => by simp [keyLe] at h
  | a :: as, b :: bs, c :: cs, h1, h2 => by
    by_cases hab : a < b
    · by_cases hbc : b < c
      · simp [keyLe, Nat.lt_trans hab hbc]
      · by_cases hcb : c < b
        · simp [keyLe, hbc, hcb] at h2
        · have hbc' : b = c := Nat.le_antisymm (Nat.not_lt.1 hcb) (Nat.not_lt.1 hbc)
          subst hbc'
          simp [keyLe, hab]
    · by_cases hba : b < a
      · simp [keyLe, hab, hba] at h1
      · have hab' : a = b := Nat.le_antisymm (Nat.not_lt.1 hba) (Nat.not_lt.1 hab)
        subst hab'
        by_cases hac : a < c
        · simp [keyLe, hac]
        · by_cases hca : c < a
          · simp [keyLe, hac, hca] at h2
          · simp only [keyLe, if_neg hab, if_neg hac, if_neg hca] at h1 h2 ⊢
            exact keyLe_trans as bs cs h1 h2

theorem entryLe_total (a b : Entry) : (entryLe a b || entryLe b a) = true :=
  keyLe_total a.key b.key

theorem entryLe_trans (a b c : Entry) (h1 : entryLe a b) (h2 : entryLe b c) :
    entryLe a c = true :=
  keyLe_trans a.key b.key c.key h1 h2

/-! ### Claim theorems -/

/-- C6: when the number of feature tensors differs from the number of
labels, `fit` fails fast with the configuration error; in the source the
length check precedes the state machine, the parameter matrix and every
`_Model` (hence every lattice) construction, and so does its embedding. -/
theorem C6_mismatch_fails_fast (X : List Tensor) (y : List Nat) (fuel : Nat)
    (h : X.length ≠ y.length) :
    fit X y fuel =
      .error "Number of training points should be the same as training labels." := by
  simp [fit, h]

theorem C6_witness :
    fit [tens 1 1, tens 1 1, tens 1 1] [0, 1] 0 =
      .error "Number of training points should be the same as training labels." :=
  C6_mismatch_fails_fast [tens 1 1, tens 1 1, tens 1 1] [0, 1] 0 (by decide)

/-- C4 counterexample: over a 2×2×1 tensor and the single-class
match/insertion/deletion machine, the list `_build_lattice` returns
contains the node `(1, 1, 0)` three times (it is reached along three
worklist paths), so the returned collection is not de-duplicated. -/
theorem C4_counterexample :
    (buildLattice (tens 2 2) smOne 6).isSome = true ∧
    ((buildLattice (tens 2 2) smOne 6).getD []).count (Entry.node 1 1 0) = 3 ∧
    ¬ ((buildLattice (tens 2 2) smOne 6).getD []).count (Entry.node 1 1 0) ≤ 1 := by
  refine ⟨by decide, by decide, by decide⟩

instance : IsTotal Entry entryRel :=
  ⟨fun a b => by simpa [entryRel, Bool.or_eq_true] using entryLe_total a b⟩

instance : IsTrans Entry entryRel :=
  ⟨fun a b c h1 h2 => entryLe_trans a b c h1 h2⟩

/-- C4 (amended): `_build_lattice` returns a lexicographically sorted list
of nodes and edges; the list is not de-duplicated, so an entry may occur
more than once. -/
theorem C4_sorted_not_deduplicated (x : Tensor) (sm : StateMachine)
    (fuel : Nat) (lat : List Entry) (h : buildLattice x sm fuel = some lat) :
    lat.Sorted entryRel := by
  unfold buildLattice at h
  rcases Option.map_eq_some'.1 h with ⟨raw, -, rfl⟩
  exact List.sorted_insertionSort entryRel raw

theorem C4_witness :
    ((buildLattice (tens 2 2) smOne 6).getD []).Sorted entryRel :=
  C4_sorted_not_deduplicated (tens 2 2) smOne 6 _ (by decide)

/-- C3: with two classes, `_initialize_parameters` sizes the matrix from
`len(state_machine[0])` (the length of the state list, which is `1`), so
the matrix has `1 + 6 = 7` columns, while `_build_lattice` computes a
state count of `2` and emits an edge carrying parameter column
`2 + 5 = 7`: the claimed shape `(n_features, n_states + n_transitions)`
would have `8` columns, and the emitted column `7` is not a valid column
index of the 7-column matrix actually allocated. -/
theorem C3_parameter_columns_out_of_bounds :
    (initializeParameters smTwo 1).cols = 7 ∧
    nStatesLattice smTwo = 2 ∧
    smTwo.transitions.length = 6 ∧
    nStatesLattice smTwo + smTwo.transitions.length ≠
      (initializeParameters smTwo 1).cols ∧
    (buildLattice (tens 2 1) smTwo 9).isSome = true ∧
    Entry.edge 0 0 1 0 1 1 7 ∈ (buildLattice (tens 2 1) smTwo 9).getD [] ∧
    ¬ 7 < (initializeParameters smTwo 1).cols := by
  refine ⟨by decide, by decide, by decide, by decide, by decide, by decide,
    by decide⟩

/-- C1: over a 1×2×1 all-zero tensor, the single-class machine and the
all-zero parameter matrix, the code's forward pass computes no alpha at
all: the first sorted lattice entry is the node `(0, 0, 0)`, the
`len(node) < 3` test is false for a 3-tuple, and the seven-name unpacking
raises `ValueError` (the node-initialisation branch the claim describes is
dead code, and the live edge code multiplies `alpha[source]` inside the
argument of `np.exp`).  The forward recurrence exactly as the claim states
it runs to completion on the same lattice and gives the node `(0, 1, 0)`
the value `1`.  The only fact used about the abstracted `np.exp` is
`exp 0 = 1`, which the real exponential satisfies exactly. -/
theorem C1_forward_recurrence_divergence (expf : ℚ → ℚ) (h : expf 0 = 1) :
    (buildLattice (tens 1 2) smOne 3).getD [] =
      [Entry.node 0 0 0, Entry.edge 0 0 0 1 0 0 2, Entry.node 0 1 0] ∧
    fbAlpha expf (tens 1 2) (initializeParameters smOne 1)
      ((buildLattice (tens 1 2) smOne 3).getD []) = none ∧
    ((claimAlpha expf (tens 1 2) (initializeParameters smOne 1) smOne.startStates
        ((buildLattice (tens 1 2) smOne 3).getD [])).map
      fun a => a (Entry.node 0 1 0)) = some 1 := by
  have hl : (buildLattice (tens 1 2) smOne 3).getD [] =
      [Entry.node 0 0 0, Entry.edge 0 0 0 1 0 0 2, Entry.node 0 1 0] := by decide
  refine ⟨hl, ?_, ?_⟩
  · exact fbAlpha_none_of_node_mem expf (tens 1 2) (initializeParameters smOne 1)
      _ 0 0 0 (by rw [hl]; exact List.mem_cons_self _ _)
  · rw [hl]
    simp [claimAlpha, claimFbStep, upd, dot, Tensor.slice, Mat.col, tens,
      initializeParameters, smOne, defaultStateMachine, h]

theorem C1_witness :
    ((fun _ : ℚ => (1 : ℚ)) 0 = 1) ∧
    ((buildLattice (tens 1 2) smOne 3).getD [] =
      [Entry.node 0 0 0, Entry.edge 0 0 0 1 0 0 2, Entry.node 0 1 0] ∧
    fbAlpha (fun _ => 1) (tens 1 2) (initializeParameters smOne 1)
      ((buildLattice (tens 1 2) smOne 3).getD []) = none ∧
    ((claimAlpha (fun _ => 1) (tens 1 2) (initializeParameters smOne 1)
        smOne.startStates ((buildLattice (tens 1 2) smOne 3).getD [])).map
      fun a => a (Entry.node 0 1 0)) = some 1) :=
  ⟨rfl, C1_forward_recurrence_divergence (fun _ => 1) rfl⟩

/-- C10 counterexample: on the single-class 1×1×1 model, whose lattice is
the single node `(0, 0, 0)`, `forward_backward` raises `ValueError` at its
first entry (the 3-tuple fails the `len(node) < 3` test and hits the
seven-name unpacking) instead of returning `None` as the claim states. -/
theorem C10_counterexample :
    forwardBackward (fun q => q) model11 (initializeParameters smOne 1) = none :=
  rfl

/-- C10 (amended): `forward_backward` never writes a field of the model
(`state_machine`, `classes`, `x`, `y`, the lattice, and the absent `ll`
and `add_derivative` attributes are unchanged whether it returns or
raises), and when it does return, the return value is `None` and the
alpha table is local and discarded; but on any lattice containing a node
entry it raises `ValueError` instead of returning, because the
`len(node) < 3` dispatch sends every 3-tuple node to the seven-name
unpacking. -/
theorem C10_frame_and_raise (expf : ℚ → ℚ) (m : Model) (p : Mat) :
    (∀ r, forwardBackward expf m p = some r →
      r.1 = m ∧ r.1.state_machine = m.state_machine ∧ r.1.classes = m.classes ∧
      r.1.x = m.x ∧ r.1.y = m.y ∧ r.1.lattice = m.lattice ∧
      r.1.ll = m.ll ∧ r.1.add_derivative = m.add_derivative ∧ r.2 = ()) ∧
    ((∃ i j s, Entry.node i j s ∈ m.lattice) →
      forwardBackward expf m p = none) := by
  constructor
  · intro r hr
    have h1 := forwardBackward_model_eq expf m p r hr
    exact ⟨h1, by rw [h1], by rw [h1], by rw [h1], by rw [h1], by rw [h1],
      by rw [h1], by rw [h1], rfl⟩
  · rintro ⟨i, j, s, hmem⟩
    unfold forwardBackward
    rw [fbAlpha_none_of_node_mem expf m.x p m.lattice i j s hmem]
    rfl

theorem C10_witness :
    ((modelEmpty, ()).1 = modelEmpty ∧
     (modelEmpty, ()).1.state_machine = modelEmpty.state_machine ∧
     (modelEmpty, ()).1.classes = modelEmpty.classes ∧
     (modelEmpty, ()).1.x = modelEmpty.x ∧
     (modelEmpty, ()).1.y = modelEmpty.y ∧
     (modelEmpty, ()).1.lattice = modelEmpty.lattice ∧
     (modelEmpty, ()).1.ll = modelEmpty.ll ∧
     (modelEmpty, ()).1.add_derivative = modelEmpty.add_derivative ∧
     ((modelEmpty, ()) : Model × Unit).2 = ()) ∧
    forwardBackward (fun q => q) model11 (initializeParameters smOne 1) = none :=
  ⟨(C10_frame_and_raise (fun q => q) modelEmpty
      (initializeParameters smOne 1)).1 (modelEmpty, ()) (by rfl),
   (C10_frame_and_raise (fun q => q) model11
      (initializeParameters smOne 1)).2 ⟨0, 0, 0, by decide⟩⟩

/-! ### Lemmas about the lattice builder and the training loop -/

theorem stepTrans_edges_no_node (x : Tensor) (nS i j s : Nat) :
    ∀ ts t0 i' j' s', Entry.node i' j' s' ∉ (stepTrans x nS i j s t0 ts).1 := by
  intro ts
  induction ts with
  | nil => intro t0 i' j' s' hmem; simp [stepTrans] at hmem
  | cons hd tl ih =>
    obtain ⟨s0, s1, d⟩ := hd
    intro t0 i' j' s' hmem
    simp only [stepTrans] at hmem
    by_cases hs : s = s0
    · rw [if_pos hs] at hmem
      by_cases hg : i + (evalDelta d i j x).1 < x.I ∧ j + (evalDelta d i j x).2 < x.J
      · rw [if_pos hg] at hmem
        rcases List.mem_cons.1 hmem with heq | hmem'
        · exact Entry.noConfusion heq
        · exact ih _ _ _ _ hmem'
      · rw [if_neg hg] at hmem
        exact ih _ _ _ _ hmem
    · rw [if_neg hs] at hmem
      exact ih _ _ _ _ hmem

theorem stepTrans_children_bounds (x : Tensor) (nS i j s : Nat) :
    ∀ ts t0 c, c ∈ (stepTrans x nS i j s t0 ts).2 → c.1 < x.I ∧ c.2.1 < x.J := by
  intro ts
  induction ts with
  | nil => intro t0 c hc; simp [stepTrans] at hc
  | cons hd tl ih =>
    obtain ⟨s0, s1, d⟩ := hd
    intro t0 c hc
    simp only [stepTrans] at hc
    by_cases hs : s = s0
    · rw [if_pos hs] at hc
      by_cases hg : i + (evalDelta d i j x).1 < x.I ∧ j + (evalDelta d i j x).2 < x.J
      · rw [if_pos hg] at hc
        rcases List.mem_cons.1 hc with rfl | hc'
        · exact ⟨hg.1, hg.2⟩
        · exact ih _ _ hc'
      · rw [if_neg hg] at hc
        exact ih _ _ hc
    · rw [if_neg hs] at hc
      exact ih _ _ hc

theorem stepTrans_children_strict (x : Tensor) (nS i j s : Nat) :
    ∀ ts, goodDeltas ts →
      ∀ t0 c, c ∈ (stepTrans x nS i j s t0 ts).2 → i + j < c.1 + c.2.1 := by
  intro ts
  induction ts with
  | nil => intro hg t0 c hc; simp [stepTrans] at hc
  | cons hd tl ih =>
    obtain ⟨s0, s1, d⟩ := hd
    intro hg t0 c hc
    have hgtl : goodDeltas tl := fun t ht => hg t (List.mem_cons_of_mem _ ht)
    simp only [stepTrans] at hc
    by_cases hs : s = s0
    · rw [if_pos hs] at hc
      by_cases hb : i + (evalDelta d i j x).1 < x.I ∧ j + (evalDelta d i j x).2 < x.J
      · rw [if_pos hb] at hc
        rcases List.mem_cons.1 hc with rfl | hc'
        · obtain ⟨di, dj, hd, hsum⟩ := hg (s0, s1, d) (List.mem_cons_self _ _)
          simp only at hd
          subst hd
          simp only [evalDelta]
          omega
        · exact ih hgtl _ _ hc'
      · rw [if_neg hb] at hc
        exact ih hgtl _ _ hc
    · rw [if_neg hs] at hc
      exact ih hgtl _ _ hc

theorem stepTrans_edges_strict (x : Tensor) (nS i j s : Nat) :
    ∀ ts, goodDeltas ts →
      ∀ t0 a b c d e f t, Entry.edge a b c d e f t ∈ (stepTrans x nS i j s t0 ts).1 →
        a + b < c + d := by
  intro ts
  induction ts with
  | nil => intro hg t0 a b c d e f t hmem; simp [stepTrans] at hmem
  | cons hd tl ih =>
    obtain ⟨s0, s1, dl⟩ := hd
    intro hg t0 a b c d e f t hmem
    have hgtl : goodDeltas tl := fun u hu => hg u (List.mem_cons_of_mem _ hu)
    simp only [stepTrans] at hmem
    by_cases hs : s = s0
    · rw [if_pos hs] at hmem
      by_cases hb : i + (evalDelta dl i j x).1 < x.I ∧ j + (evalDelta dl i j x).2 < x.J
      · rw [if_pos hb] at hmem
        rcases List.mem_cons.1 hmem with heq | hmem'
        · obtain ⟨di, dj, hdl, hsum⟩ := hg (s0, s1, dl) (List.mem_cons_self _ _)
          simp only at hdl
          subst hdl
          injection heq with e1 e2 e3 e4
          subst e1; subst e2; subst e3; subst e4
          simp only [evalDelta]
          omega
        · exact ih hgtl _ _ _ _ _ _ _ _ hmem'
      · rw [if_neg hb] at hmem
        exact ih hgtl _ _ _ _ _ _ _ _ hmem
    · rw [if_neg hs] at hmem
      exact ih hgtl _ _ _ _ _ _ _ _ hmem

theorem stepTrans_children_length (x : Tensor) (nS i j s : Nat) :
    ∀ ts t0, (stepTrans x nS i j s t0 ts).2.length ≤ ts.length := by
  intro ts
  induction ts with
  | nil => intro t0; simp [stepTrans]
  | cons hd tl ih =>
    obtain ⟨s0, s1, d⟩ := hd
    intro t0
    simp only [stepTrans]
    by_cases hs : s = s0
    · rw [if_pos hs]
      by_cases hg : i + (evalDelta d i j x).1 < x.I ∧ j + (evalDelta d i j x).2 < x.J
      · rw [if_pos hg]
        simpa using Nat.succ_le_succ (ih (t0 + 1))
      · rw [if_neg hg]
        exact le_trans (ih (t0 + 1)) (by simp)
    · rw [if_neg hs]
      exact le_trans (ih (t0 + 1)) (by simp)


theorem buildLoop_nodes_bounded (x : Tensor) (sm : StateMachine) (nS : Nat) :
    ∀ fuel wl lat out,
      buildLoop x sm nS fuel wl lat = some out →
      (∀ c ∈ wl, c.1 < x.I ∧ c.2.1 < x.J) →
      (∀ i j s, Entry.node i j s ∈ lat → i < x.I ∧ j < x.J) →
      ∀ i j s, Entry.node i j s ∈ out → i < x.I ∧ j < x.J := by
  intro fuel
  induction fuel with
  | zero =>
    intro wl lat out hout hwl hlat i j s hmem
    cases wl with
    | nil =>
      have heq : lat = out := by simpa [buildLoop] using hout
      subst heq
      exact hlat i j s hmem
    | cons c rest => simp [buildLoop] at hout
  | succ f ih =>
    intro wl lat out hout hwl hlat i j s hmem
    cases wl with
    | nil =>
      have heq : lat = out := by simpa [buildLoop] using hout
      subst heq
      exact hlat i j s hmem
    | cons c rest =>
      obtain ⟨ci, cj, cs⟩ := c
      simp only [buildLoop] at hout
      refine ih _ _ _ hout ?_ ?_ i j s hmem
      · intro c' hc'
        rcases List.mem_append.1 hc' with h1 | h2
        · exact hwl c' (List.mem_cons_of_mem _ h1)
        · exact stepTrans_children_bounds x nS ci cj cs _ _ c' h2
      · intro i' j' s' hmem'
        rcases List.mem_append.1 hmem' with h1 | h2
        · exact hlat _ _ _ h1
        · rcases List.mem_cons.1 h2 with heq | h3
          · injection heq with e1 e2 e3
            rw [e1, e2]
            exact hwl (ci, cj, cs) (List.mem_cons_self _ _)
          · exact absurd h3 (stepTrans_edges_no_node x nS ci cj cs _ _ i' j' s')

theorem buildLoop_count_start (x : Tensor) (sm : StateMachine) (nS : Nat)
    (hg : goodDeltas sm.transitions) (s : Nat) :
    ∀ fuel wl lat out,
      buildLoop x sm nS fuel wl lat = some out →
      out.count (Entry.node 0 0 s) =
        lat.count (Entry.node 0 0 s) + wl.count ((0, 0, s) : Nat × Nat × Nat) := by
  intro fuel
  induction fuel with
  | zero =>
    intro wl lat out hout
    cases wl with
    | nil =>
      have heq : lat = out := by simpa [buildLoop] using hout
      subst heq
      simp
    | cons c rest => simp [buildLoop] at hout
  | succ f ih =>
    intro wl lat out hout
    cases wl with
    | nil =>
      have heq : lat = out := by simpa [buildLoop] using hout
      subst heq
      simp
    | cons c rest =>
      obtain ⟨ci, cj, cs⟩ := c
      simp only [buildLoop] at hout
      have h1 := ih _ _ _ hout
      rw [h1]
      have hedges : (stepTrans x nS ci cj cs 0 sm.transitions).1.count
          (Entry.node 0 0 s) = 0 :=
        List.count_eq_zero.2 (stepTrans_edges_no_node x nS ci cj cs _ _ 0 0 s)
      have hchildren : (stepTrans x nS ci cj cs 0 sm.transitions).2.count
          ((0, 0, s) : Nat × Nat × Nat) = 0 := by
        refine List.count_eq_zero.2 fun hmem => ?_
        have := stepTrans_children_strict x nS ci cj cs _ hg _ _ hmem
        simp at this
      rw [List.count_append, List.count_append, List.count_cons, List.count_cons,
        hedges, hchildren]
      simp only [beq_iff_eq, Entry.node.injEq, Prod.mk.injEq]
      split_ifs with hk
      · omega
      · omega

theorem buildLoop_edges_strict (x : Tensor) (sm : StateMachine) (nS : Nat)
    (hg : goodDeltas sm.transitions) :
    ∀ fuel wl lat out,
      buildLoop x sm nS fuel wl lat = some out →
      (∀ a b c d e f t, Entry.edge a b c d e f t ∈ lat → a + b < c + d) →
      ∀ a b c d e f t, Entry.edge a b c d e f t ∈ out → a + b < c + d := by
  intro fuel
  induction fuel with
  | zero =>
    intro wl lat out hout hlat a b c d e f t hmem
    cases wl with
    | nil =>
      have heq : lat = out := by simpa [buildLoop] using hout
      subst heq
      exact hlat _ _ _ _ _ _ _ hmem
    | cons c0 rest => simp [buildLoop] at hout
  | succ fl ih =>
    intro wl lat out hout hlat a b c d e f t hmem
    cases wl with
    | nil =>
      have heq : lat = out := by simpa [buildLoop] using hout
      subst heq
      exact hlat _ _ _ _ _ _ _ hmem
    | cons c0 rest =>
      obtain ⟨ci, cj, cs⟩ := c0
      simp only [buildLoop] at hout
      refine ih _ _ _ hout ?_ a b c d e f t hmem
      intro a' b' c' d' e' f' t' hmem'
      rcases List.mem_append.1 hmem' with h1 | h2
      · exact hlat _ _ _ _ _ _ _ h1
      · rcases List.mem_cons.1 h2 with heq | h3
        · exact Entry.noConfusion heq
        · exact stepTrans_edges_strict x nS ci cj cs _ hg _ _ _ _ _ _ _ _ h3


def cost (T : Nat) : Nat → Nat
  | 0 => 1
  | r + 1 => 1 + T * cost T r

theorem cost_pos (T r : Nat) : 1 ≤ cost T r := by
  cases r <;> simp [cost]

theorem cost_le_cost_succ (T r : Nat) : cost T r ≤ cost T (r + 1) := by
  induction r with
  | zero => simp [cost]
  | succ n ihn =>
    show 1 + T * cost T n ≤ 1 + T * cost T (n + 1)
    have h2 := Nat.mul_le_mul_left T ihn
    omega

theorem cost_mono (T : Nat) {r r' : Nat} (h : r ≤ r') : cost T r ≤ cost T r' := by
  induction h with
  | refl => exact le_refl _
  | step h2 ih => exact le_trans ih (cost_le_cost_succ T _)

def potential (T I J : Nat) (wl : List (Nat × Nat × Nat)) : Nat :=
  (wl.map fun c => cost T (I + J - (c.1 + c.2.1))).sum

theorem potential_nil (T I J : Nat) : potential T I J [] = 0 := rfl

theorem potential_cons (T I J : Nat) (c : Nat × Nat × Nat) (wl) :
    potential T I J (c :: wl) =
      cost T (I + J - (c.1 + c.2.1)) + potential T I J wl := by
  simp [potential]

theorem potential_append (T I J : Nat) (a b : List (Nat × Nat × Nat)) :
    potential T I J (a ++ b) = potential T I J a + potential T I J b := by
  simp [potential]

theorem potential_children (x : Tensor) (sm : StateMachine) (nS : Nat)
    (hg : goodDeltas sm.transitions) (i j s : Nat) :
    1 + potential sm.transitions.length x.I x.J
        (stepTrans x nS i j s 0 sm.transitions).2
      ≤ cost sm.transitions.length (x.I + x.J - (i + j)) := by
  rcases Nat.eq_zero_or_pos (x.I + x.J - (i + j)) with h0 | hpos
  · have hempty : (stepTrans x nS i j s 0 sm.transitions).2 = [] := by
      rw [List.eq_nil_iff_forall_not_mem]
      intro c hc
      have h1 := stepTrans_children_bounds x nS i j s sm.transitions 0 c hc
      have h2 := stepTrans_children_strict x nS i j s sm.transitions hg 0 c hc
      omega
    rw [hempty, h0, potential_nil]
    simp [cost]
  · obtain ⟨d, hd⟩ : ∃ d, x.I + x.J - (i + j) = d + 1 :=
      ⟨_, (Nat.succ_pred_eq_of_pos hpos).symm⟩
    rw [hd]
    have hbound : ∀ v ∈ (stepTrans x nS i j s 0 sm.transitions).2.map
        (fun c => cost sm.transitions.length (x.I + x.J - (c.1 + c.2.1))),
        v ≤ cost sm.transitions.length d := by
      intro v hv
      rcases List.mem_map.1 hv with ⟨c, hc, rfl⟩
      have h1 := stepTrans_children_bounds x nS i j s sm.transitions 0 c hc
      have h2 := stepTrans_children_strict x nS i j s sm.transitions hg 0 c hc
      exact cost_mono _ (by omega)
    have hsum := List.sum_le_card_nsmul _ _ hbound
    have hlen : ((stepTrans x nS i j s 0 sm.transitions).2.map
        (fun c => cost sm.transitions.length (x.I + x.J - (c.1 + c.2.1)))).length
        ≤ sm.transitions.length := by
      rw [List.length_map]
      exact stepTrans_children_length x nS i j s sm.transitions 0
    have hmul : ((stepTrans x nS i j s 0 sm.transitions).2.map
        (fun c => cost sm.transitions.length (x.I + x.J - (c.1 + c.2.1)))).length *
          cost sm.transitions.length d
        ≤ sm.transitions.length * cost sm.transitions.length d :=
      Nat.mul_le_mul_right _ hlen
    simp only [smul_eq_mul] at hsum
    show 1 + ((stepTrans x nS i j s 0 sm.transitions).2.map
        (fun c => cost sm.transitions.length (x.I + x.J - (c.1 + c.2.1)))).sum
      ≤ cost sm.transitions.length (d + 1)
    simp only [cost]
    omega

theorem buildLoop_terminates (x : Tensor) (sm : StateMachine) (nS : Nat)
    (hg : goodDeltas sm.transitions) :
    ∀ fuel wl lat, potential sm.transitions.length x.I x.J wl ≤ fuel →
      (buildLoop x sm nS fuel wl lat).isSome = true := by
  intro fuel
  induction fuel with
  | zero =>
    intro wl lat hp
    cases wl with
    | nil => simp [buildLoop]
    | cons c rest =>
      exfalso
      have hc := cost_pos sm.transitions.length (x.I + x.J - (c.1 + c.2.1))
      rw [potential_cons] at hp
      omega
  | succ f ih =>
    intro wl lat hp
    cases wl with
    | nil => simp [buildLoop]
    | cons c rest =>
      obtain ⟨ci, cj, cs⟩ := c
      simp only [buildLoop]
      apply ih
      have h1 := potential_children x sm nS hg ci cj cs
      rw [potential_cons] at hp
      rw [potential_append]
      simp only at hp h1 ⊢
      omega


theorem defaultStateMachine_good (classes : List α) :
    goodDeltas (defaultStateMachine classes).1.transitions := by
  intro t ht
  simp only [defaultStateMachine, List.mem_append, List.mem_map] at ht
  rcases ht with (⟨i, -, rfl⟩ | ⟨i, -, rfl⟩) | ⟨i, -, rfl⟩
  · exact ⟨1, 1, rfl, by omega⟩
  · exact ⟨0, 1, rfl, by omega⟩
  · exact ⟨1, 0, rfl, by omega⟩

theorem count_pair_map_range (n s : Nat) :
    ((List.range n).map fun s' => ((0, 0, s') : Nat × Nat × Nat)).count (0, 0, s) =
      if s < n then 1 else 0 := by
  induction n with
  | zero => simp
  | succ m ih =>
    rw [List.range_succ, List.map_append, List.count_append, ih]
    have hc : (([((0, 0, m) : Nat × Nat × Nat)]).count ((0, 0, s) : Nat × Nat × Nat)) =
        if s = m then 1 else 0 := by
      by_cases hsm : s = m
      · subst hsm; simp
      · simp [List.count_cons, hsm, Prod.ext_iff]
    simp only [List.map_cons, List.map_nil]
    rw [hc]
    split_ifs <;> omega


theorem stepTrans_degenerate (x : Tensor) (hx : x.I = 0 ∨ x.J = 0)
    (nS i j s : Nat) : ∀ ts t0, stepTrans x nS i j s t0 ts = ([], []) := by
  intro ts
  induction ts with
  | nil => intro t0; rfl
  | cons hd tl ih =>
    obtain ⟨s0, s1, d⟩ := hd
    intro t0
    have hguard : ¬(i + (evalDelta d i j x).1 < x.I ∧
        j + (evalDelta d i j x).2 < x.J) := by
      rcases hx with h | h <;> simp [h]
    simp [stepTrans, ih, hguard]

theorem buildLoop_all_nodes (x : Tensor) (sm : StateMachine) (nS : Nat)
    (hstep : ∀ i j s t0, stepTrans x nS i j s t0 sm.transitions = ([], [])) :
    ∀ wl fuel lat, wl.length ≤ fuel →
      buildLoop x sm nS fuel wl lat =
        some (lat ++ wl.map fun c => Entry.node c.1 c.2.1 c.2.2) := by
  intro wl
  induction wl with
  | nil => intro fuel lat h; cases fuel <;> simp [buildLoop]
  | cons c rest ih =>
    intro fuel lat h
    obtain ⟨ci, cj, cs⟩ := c
    cases fuel with
    | zero => simp at h
    | succ f =>
      simp only [buildLoop, hstep ci cj cs 0]
      rw [List.append_nil, ih f (lat ++ [Entry.node ci cj cs]) (by simpa using h)]
      simp

theorem countP_beq_range (n i : Nat) (hi : i < n) :
    (List.range n).countP (fun k => k == i) = 1 := by
  have h1 : (List.range n).countP (fun k => k == i) = (List.range n).count i := rfl
  rw [h1]
  exact List.count_eq_one_of_mem (List.nodup_range n) (List.mem_range.2 hi)


theorem fit_ok_inv (X : List Tensor) (y : List Nat) (fuel : Nat)
    (r : Mat × List Model) (h : fit X y fuel = .ok r) :
    ∃ m ms, r.2 = m :: ms ∧ m.add_derivative = none ∧ m.ll = none := by
  rcases X with _ | ⟨x0, X'⟩
  · simp only [fit] at h
    split at h
    · exact absurd h (by simp)
    · exact absurd h (by simp)
  · rcases y with _ | ⟨y0, y'⟩
    · simp only [fit] at h
      rw [if_pos (by simp)] at h
      exact absurd h (by simp)
    · simp only [fit] at h
      by_cases hlen : (x0 :: X').length ≠ (y0 :: y').length
      · rw [if_pos hlen] at h
        exact absurd h (by simp)
      · rw [if_neg hlen] at h
        simp only [List.zip_cons_cons, List.mapM_cons] at h
        split at h
        · exact absurd h (by simp)
        · rename_i models hmap
          rcases Option.bind_eq_some.1 hmap with ⟨m, hm, hrest⟩
          rcases Option.bind_eq_some.1 hrest with ⟨ms, -, hpure⟩
          have hmodels : models = m :: ms := by
            simpa using hpure.symm
          have hr : r.2 = models := by
            cases h; rfl
          refine ⟨m, ms, by rw [hr, hmodels], ?_, ?_⟩
          · unfold mkModel at hm
            rcases Option.map_eq_some'.1 hm with ⟨lat, -, rfl⟩
            rfl
          · unfold mkModel at hm
            rcases Option.map_eq_some'.1 hm with ⟨lat, -, rfl⟩
            rfl


/-! ### Remaining claim theorems -/

/-- C2: for a training set accepted by `fit`, an objective evaluation does
not return the negated log-likelihood sum and gradient: on the first
example, `model.forward_backward(parameters)` raises `ValueError` at the
first 3-tuple node of the lattice (the `len(node) < 3` dispatch sends it
to the seven-name unpacking), and even a run that returned from it would
stop at `model.add_derivative` and `model.ll`, attributes `_Model` never
defines. -/
theorem C2_objective_raises_attribute_error (X : List Tensor) (y : List Nat) (fuel : Nat)
    (expf : ℚ → ℚ) (p : Mat)
    (hfit : exceptIsOk (fit X y fuel) = true) :
    ∃ msg, fitThenObjective X y fuel expf p = Except.error msg := by
  unfold fitThenObjective
  cases hfit2 : fit X y fuel with
  | error e => rw [hfit2] at hfit; exact absurd hfit (by simp [exceptIsOk])
  | ok r =>
    obtain ⟨m, ms, hr2, hadd, -⟩ := fit_ok_inv X y fuel r hfit2
    show ∃ msg, objective expf r.2 p r.1 = Except.error msg
    rw [hr2]
    unfold objective
    cases hfb : forwardBackward expf m p with
    | none => exact ⟨"exception raised in forward_backward", by simp [objectiveLoop, hfb]⟩
    | some rr =>
      have hm : rr.1 = m := forwardBackward_model_eq expf m p rr hfb
      exact ⟨"AttributeError: add_derivative",
        by simp [objectiveLoop, hfb, hm, hadd]⟩


theorem C2_witness :
    exceptIsOk (fit [tens 1 1] [0] 1) = true ∧
    ∃ msg, fitThenObjective [tens 1 1] [0] 1 (fun q => q)
      (initializeParameters smOne 1) = Except.error msg :=
  ⟨by decide, C2_objective_raises_attribute_error [tens 1 1] [0] 1 (fun q => q)
    (initializeParameters smOne 1) (by decide)⟩

/-- C5: a degenerate example (string1_length = 0 or string2_length = 0)
still makes `_build_lattice` emit the start nodes `(0, 0, s)`, and
`forward_backward` then raises `ValueError` at the first of them (the
3-tuple fails the `len(node) < 3` test and hits the seven-name unpacking):
the example crashes instead of yielding a log-likelihood of negative
infinity and a zero gradient. -/
theorem C5_degenerate_input_crashes (expf : ℚ → ℚ) (classes : List Nat) (x : Tensor) (y : Nat)
    (p : Mat) (fuel : Nat) (hc : classes ≠ []) (hx : x.I = 0 ∨ x.J = 0)
    (hfuel : classes.length ≤ fuel) :
    (mkModel (defaultStateMachine classes).1 classes x y fuel).isSome = true ∧
    ((mkModel (defaultStateMachine classes).1 classes x y fuel).bind
      fun m => forwardBackward expf m p) = none := by
  have hstep : ∀ i j s t0, stepTrans x
      (nStatesLattice (defaultStateMachine classes).1) i j s t0
      (defaultStateMachine classes).1.transitions = ([], []) :=
    fun i j s t0 => stepTrans_degenerate x hx _ i j s _ t0
  have hbuild := buildLoop_all_nodes x (defaultStateMachine classes).1 _ hstep
      ((defaultStateMachine classes).1.startStates.map fun s => (0, 0, s)) fuel []
      (by simpa [defaultStateMachine] using hfuel)
  have hlat : buildLattice x (defaultStateMachine classes).1 fuel =
      some (sortEntries (((defaultStateMachine classes).1.startStates.map
        fun s => (0, 0, s)).map fun c => Entry.node c.1 c.2.1 c.2.2)) := by
    unfold buildLattice
    rw [hbuild]
    simp
  set L := sortEntries (((defaultStateMachine classes).1.startStates.map
    fun s => (0, 0, s)).map fun c => Entry.node c.1 c.2.1 c.2.2) with hLdef
  have hlen : L.length = classes.length := by
    have hperm := List.perm_insertionSort entryRel
      (((defaultStateMachine classes).1.startStates.map
        fun s => (0, 0, s)).map fun c => Entry.node c.1 c.2.1 c.2.2)
    have := hperm.length_eq
    simp only [hLdef, sortEntries]
    simp [this, defaultStateMachine]
  have hnodes : ∀ e ∈ L, ∃ s0, e = Entry.node 0 0 s0 := by
    intro e he
    have he' := (List.mem_insertionSort entryRel).1 he
    rcases List.mem_map.1 he' with ⟨c, hc, rfl⟩
    rcases List.mem_map.1 hc with ⟨s0, -, rfl⟩
    exact ⟨s0, rfl⟩
  have hfb : fbAlpha expf x p L = none := by
    cases hL : L with
    | nil =>
      exfalso
      rw [hL] at hlen
      simp at hlen
      exact hc (List.length_eq_zero.1 hlen.symm)
    | cons hd tl =>
      obtain ⟨s0, rfl⟩ := hnodes hd (by rw [hL]; exact List.mem_cons_self _ _)
      unfold fbAlpha
      rw [List.foldlM_cons]
      rw [fbStep_node_raises expf x p _ 0 0 s0]
      rfl
  constructor
  · simp [mkModel, hlat]
  · simp [mkModel, hlat, forwardBackward, hfb]


theorem C5_witness :
    (mkModel (defaultStateMachine [0]).1 [0] (tens 0 1) 0 1).isSome = true ∧
    ((mkModel (defaultStateMachine [0]).1 [0] (tens 0 1) 0 1).bind
      fun m => forwardBackward (fun q => q) m (initializeParameters smOne 1)) = none :=
  C5_degenerate_input_crashes (fun q => q) [0] (tens 0 1) 0
    (initializeParameters smOne 1) 1 (by decide) (by decide) (by decide)

/-- C7: over the per-class match/insertion/deletion machine and an
I×J×F tensor with I, J at least 1, the lattice contains the start node
`(0, 0, s)` exactly once for every class `s`, no start node for any other
state, and every node `(i, j, s)` satisfies `i < I` and `j < J`. -/
theorem C7_default_lattice_start_nodes (classes : List α) (x : Tensor) (fuel : Nat) (lat : List Entry)
    (hI : 1 ≤ x.I) (hJ : 1 ≤ x.J)
    (h : buildLattice x (defaultStateMachine classes).1 fuel = some lat) :
    (∀ s, s < classes.length → lat.count (Entry.node 0 0 s) = 1) ∧
    (∀ s, ¬ s < classes.length → lat.count (Entry.node 0 0 s) = 0) ∧
    (∀ i j s, Entry.node i j s ∈ lat → i < x.I ∧ j < x.J) := by
  have hgood := defaultStateMachine_good classes
  unfold buildLattice at h
  rcases Option.map_eq_some'.1 h with ⟨raw, hraw, rfl⟩
  have hcount : ∀ s : Nat, (sortEntries raw).count (Entry.node 0 0 s) =
      raw.count (Entry.node 0 0 s) :=
    fun s => (List.perm_insertionSort entryRel raw).count_eq _
  refine ⟨?_, ?_, ?_⟩
  · intro s hs
    rw [hcount s, buildLoop_count_start x _ _ hgood s _ _ _ _ hraw]
    simp only [defaultStateMachine, List.count_nil, Nat.zero_add]
    rw [count_pair_map_range]
    simp [hs]
  · intro s hs
    rw [hcount s, buildLoop_count_start x _ _ hgood s _ _ _ _ hraw]
    simp only [defaultStateMachine, List.count_nil, Nat.zero_add]
    rw [count_pair_map_range]
    simp [hs]
  · intro i j s hmem
    have hmem' : Entry.node i j s ∈ raw := (List.mem_insertionSort entryRel).1 hmem
    refine buildLoop_nodes_bounded x _ _ _ _ _ _ hraw ?_ ?_ i j s hmem'
    · intro c hc
      rcases List.mem_map.1 hc with ⟨s', -, rfl⟩
      constructor
      · simpa using hI
      · simpa using hJ
    · intro i' j' s' hmem''
      simp at hmem''


theorem C7_witness :
    (∀ s, s < [(0 : Nat)].length →
      ((buildLattice (tens 1 1) (defaultStateMachine [(0 : Nat)]).1 1).getD []).count
        (Entry.node 0 0 s) = 1) ∧
    (∀ s, ¬ s < [(0 : Nat)].length →
      ((buildLattice (tens 1 1) (defaultStateMachine [(0 : Nat)]).1 1).getD []).count
        (Entry.node 0 0 s) = 0) ∧
    (∀ i j s, Entry.node i j s ∈
        (buildLattice (tens 1 1) (defaultStateMachine [(0 : Nat)]).1 1).getD [] →
      i < (tens 1 1).I ∧ j < (tens 1 1).J) :=
  C7_default_lattice_start_nodes [(0 : Nat)] (tens 1 1) 1 _
    (by decide) (by decide) (by decide)

/-- C8: `_default_state_machine` returns one start state per class (the
states `0 .. n-1` and nothing else), with, for each class `i`, exactly one
transition from `i` with each of the deltas `(1, 1)` (match), `(0, 1)`
(insertion) and `(1, 0)` (deletion), exactly three transitions from `i` in
total, every transition a self-transition, and a `states_to_classes`
mapping pairing start state `i` with `classes[i]`. -/
theorem C8_default_machine_shape (classes : List α) (_h : classes ≠ []) :
    (defaultStateMachine classes).1.startStates = List.range classes.length ∧
    (defaultStateMachine classes).1.otherStates = [] ∧
    (∀ t ∈ (defaultStateMachine classes).1.transitions, t.1 = t.2.1) ∧
    (∀ i, i < classes.length →
      ((defaultStateMachine classes).1.transitions.countP
          (fun t => t.1 == i && t.2.2.isFixed 1 1) = 1 ∧
       (defaultStateMachine classes).1.transitions.countP
          (fun t => t.1 == i && t.2.2.isFixed 0 1) = 1 ∧
       (defaultStateMachine classes).1.transitions.countP
          (fun t => t.1 == i && t.2.2.isFixed 1 0) = 1 ∧
       (defaultStateMachine classes).1.transitions.countP
          (fun t => t.1 == i) = 3)) ∧
    (∀ i : Nat, ((defaultStateMachine classes).2[i]?) =
      (classes[i]?).map fun c => (i, c)) := by
  refine ⟨rfl, rfl, ?_, ?_, ?_⟩
  · intro t ht
    simp only [defaultStateMachine, List.mem_append, List.mem_map] at ht
    rcases ht with (⟨i, -, rfl⟩ | ⟨i, -, rfl⟩) | ⟨i, -, rfl⟩ <;> rfl
  · intro i hi
    simp only [defaultStateMachine, List.countP_append, List.countP_map]
    simp only [Function.comp_def, Delta.isFixed]
    simp only [decide_True, decide_False, and_true, and_false, Bool.and_true,
      Bool.and_false, Bool.decide_and]
    refine ⟨?_, ?_, ?_, ?_⟩ <;>
      simp [countP_beq_range _ _ hi, List.countP_false]
  · intro i
    simp only [defaultStateMachine]
    exact List.getElem?_enum classes i


theorem C8_witness :
    (defaultStateMachine [(7 : Nat)]).1.startStates = List.range [(7 : Nat)].length ∧
    (defaultStateMachine [(7 : Nat)]).1.otherStates = [] ∧
    (∀ t ∈ (defaultStateMachine [(7 : Nat)]).1.transitions, t.1 = t.2.1) ∧
    (∀ i, i < [(7 : Nat)].length →
      ((defaultStateMachine [(7 : Nat)]).1.transitions.countP
          (fun t => t.1 == i && t.2.2.isFixed 1 1) = 1 ∧
       (defaultStateMachine [(7 : Nat)]).1.transitions.countP
          (fun t => t.1 == i && t.2.2.isFixed 0 1) = 1 ∧
       (defaultStateMachine [(7 : Nat)]).1.transitions.countP
          (fun t => t.1 == i && t.2.2.isFixed 1 0) = 1 ∧
       (defaultStateMachine [(7 : Nat)]).1.transitions.countP
          (fun t => t.1 == i) = 3)) ∧
    (∀ i : Nat, ((defaultStateMachine [(7 : Nat)]).2[i]?) =
      ([(7 : Nat)][i]?).map fun c => (i, c)) :=
  C8_default_machine_shape [(7 : Nat)] (by decide)

/-- C9: for a state machine all of whose deltas are fixed non-negative
pairs with `di + dj` at least 1, `_build_lattice` terminates on every
tensor, and every emitted edge strictly increases `i + j`, so the lattice
is acyclic. -/
theorem C9_build_terminates_edges_increase (x : Tensor) (sm : StateMachine) (hg : goodDeltas sm.transitions) :
    (∃ fuel lat, buildLattice x sm fuel = some lat) ∧
    (∀ fuel lat, buildLattice x sm fuel = some lat →
      ∀ a b c d e f t, Entry.edge a b c d e f t ∈ lat → a + b < c + d) := by
  constructor
  · have h := buildLoop_terminates x sm (nStatesLattice sm) hg
      (potential sm.transitions.length x.I x.J
        (sm.startStates.map fun s => (0, 0, s)))
      (sm.startStates.map fun s => (0, 0, s)) [] (le_refl _)
    rcases Option.isSome_iff_exists.1 h with ⟨raw, hraw⟩
    refine ⟨potential sm.transitions.length x.I x.J
        (sm.startStates.map fun s => (0, 0, s)), sortEntries raw, ?_⟩
    simp [buildLattice, hraw]
  · intro fuel lat h a b c d e f t hmem
    unfold buildLattice at h
    rcases Option.map_eq_some'.1 h with ⟨raw, hraw, rfl⟩
    have hmem' : Entry.edge a b c d e f t ∈ raw :=
      (List.mem_insertionSort entryRel).1 hmem
    exact buildLoop_edges_strict x sm _ hg _ _ _ _ hraw
      (by intro a' b' c' d' e' f' t' hmem''; simp at hmem'')
      a b c d e f t hmem'


theorem C9_witness :
    (∃ fuel lat, buildLattice (tens 2 2) smOne fuel = some lat) ∧
    (∀ fuel lat, buildLattice (tens 2 2) smOne fuel = some lat →
      ∀ a b c d e f t, Entry.edge a b c d e f t ∈ lat → a + b < c + d) :=
  C9_build_terminates_edges_increase (tens 2 2) smOne
    (defaultStateMachine_good [0])

end Pyhacrf
